import Mathlib

/-!
Verification development for the shard-manager specification of the
`suddenlyGiovanni/effect` repository.

The development shallowly embeds, in Lean 4:

* the guarded division helpers of `packages/effect/src/internal/number.ts`
  (JS numbers are modelled as rationals; the guard `divisor === 0` is an
  exact equality test, so the branching structure is preserved);
* the in-place mutation behaviour of `packages/effect/src/MutableHashSet.ts`
  (a heap of set objects addressed by references makes the aliasing and
  absence of allocation expressible);
* the runner-side `PingShard` RPC handler of the sharding protocol router;
* the shard-manager state machine (state store, assignment engine,
  control-loop commands).  The shard-manager implementation itself
  (`@effect/cluster/internal/shardManager`) is not part of the source tree,
  only its benchmark harness is, so those definitions are modelled from the
  specification text and are marked `Modelled from the spec:` below.
-/

namespace InternalNumber

/-- Embeds the raw division helper of
`packages/effect/src/internal/number.ts` (the source names it with an
`unsafe` prefix): `(dividend, divisor) => dividend / divisor`.
JS numbers are modelled as rationals. -/
def rawDivide (dividend divisor : ℚ) : ℚ := dividend / divisor

/-- Embeds `divide` of `packages/effect/src/internal/number.ts`:
`divisor === 0 ? option.none : option.some(unsafeDivide(dividend, divisor))`. -/
def divide (dividend divisor : ℚ) : Option ℚ :=
  if divisor = 0 then none else some (rawDivide dividend divisor)

end InternalNumber

namespace MutableHashSet

/-- Heap of mutable-set objects.  A `MutableHashSet` value in JS is a
reference into the heap; `store r` is the list of keys currently held by the
set object at reference `r` (the keys of its backing `keyMap`, in insertion
order), and `next` is the allocation counter: operations that create a new
object bump it, operations that mutate in place do not. -/
structure Heap (K : Type) where
  store : Nat → List K
  next : Nat

/-- Backing-map update used by `add`: `MutableHashMap.set(keyMap, key, true)`
records `key` if absent (insertion order preserved) and is a no-op on the
key list if present. -/
def insertKey {K : Type} [DecidableEq K] (key : K) (l : List K) : List K :=
  if key ∈ l then l else l ++ [key]

/-- Embeds `MutableHashSet.add` (`packages/effect/src/MutableHashSet.ts`):
`(self, key) => (MutableHashMap.set(self.keyMap, key, true), self)` — the
object at reference `r` is mutated in place and the same reference is
returned; no new object is allocated. -/
def add {K : Type} [DecidableEq K] (h : Heap K) (r : Nat) (key : K) :
    Heap K × Nat :=
  ({ h with store := fun i => if i = r then insertKey key (h.store i) else h.store i }, r)

/-- Embeds `MutableHashSet.remove`:
`(self, key) => (MutableHashMap.remove(self.keyMap, key), self)`. -/
def remove {K : Type} [DecidableEq K] (h : Heap K) (r : Nat) (key : K) :
    Heap K × Nat :=
  ({ h with
      store := fun i =>
        if i = r then (h.store i).filter (fun x => decide (x ≠ key)) else h.store i }, r)

/-- Embeds `MutableHashSet.has`:
`(self, key) => MutableHashMap.has(self.keyMap, key)`. -/
def has {K : Type} [DecidableEq K] (h : Heap K) (r : Nat) (key : K) : Bool :=
  decide (key ∈ h.store r)

/-- Embeds `MutableHashSet.empty`, the only constructor used by the doc
examples: it allocates a fresh object (bumps the allocation counter) and
returns the new reference. -/
def emptySet {K : Type} (h : Heap K) : Heap K × Nat :=
  ({ store := fun i => if i = h.next then [] else h.store i, next := h.next + 1 }, h.next)

end MutableHashSet

namespace ShardingRpc

/-- Health-ping outcome as seen at the RPC layer: the handler either
succeeds with a boolean payload or fails. -/
inductive PingReply where
  | ok (healthy : Bool)
  | fail
deriving DecidableEq

/-- Request payload of `ShardingProtocol.PingShard`. -/
structure PingShardRequest where
  shardId : Nat
deriving DecidableEq

/-- Embeds the runner-side `PingShard` handler of the sharding RPC router
(src/unnamed/part_006, line 26):
`Rpc.effect(ShardingProtocol.PingShard, () => Effect.succeed(true))`.
The handler ignores the request and always succeeds with `true`. -/
def pingShardHandler (_request : PingShardRequest) : PingReply := .ok true

end ShardingRpc

namespace ShardManager

/-- Modelled from the spec: a runner address is a `(host, port)` pair
uniquely identifying a worker process, compared by value (§3).  The shard
manager implementation (`@effect/cluster/internal/shardManager`) is not in
the source tree — only its benchmark harness is — so this and the following
definitions are taken from the specification text. -/
structure RunnerAddress where
  host : String
  port : Nat
deriving DecidableEq

/-- Modelled from the spec: a runner has an address and a deployed software
version used to gate assignment during rolling upgrades (§3). -/
structure Runner where
  address : RunnerAddress
  version : Nat
deriving DecidableEq

/-- Modelled from the spec: the runner record kept by the manager — address
and version (inside `runner`), registration timestamp and last-heartbeat
timestamp from the injected clock (§3; the benchmark constructs
`RunnerWithMetadata({ runner, registeredAt })`, the heartbeat field is from
the spec). -/
structure RunnerWithMetadata where
  runner : Runner
  registeredAt : Nat
  lastHeartbeat : Nat
deriving DecidableEq

/-- Shard identifier: a positive integer in `[1, N]` (§3). -/
abbrev ShardId := Nat

/-- Modelled from the spec: the state-store snapshot — the registered runner
records (keyed by address) and the total assignment map `shard → optional
runner address` with domain `[1, N]` (§3, §4.1; the benchmark constructs
`new State(runnersMap, assignmentsMap)`).  Both maps are embedded as
association lists. -/
structure State where
  runners : List RunnerWithMetadata
  assignments : List (ShardId × Option RunnerAddress)
deriving DecidableEq

/-- Modelled from the spec: the configuration options the claims depend on
(§6): the fixed shard count and the liveness threshold used by health
ticks. -/
structure Config where
  totalShards : Nat
  livenessThreshold : Nat
deriving DecidableEq

/-- Modelled from the spec: the control-loop event kinds (§4.3): register,
unregister, heartbeat, health tick, the debounce-timer firing (a rebalance
round), and the persister callbacks. -/
inductive Cmd where
  | register (r : Runner) (now : Nat)
  | unregister (a : RunnerAddress)
  | heartbeat (a : RunnerAddress) (now : Nat)
  | healthTick (now : Nat)
  | rebalance
  | persisted
  | persistFailed
deriving DecidableEq

/-- Modelled from the spec: command replies — `ok`, or the typed
*ClientMisuse* error of §7. -/
inductive Reply where
  | ok
  | clientMisuse
deriving DecidableEq

/-- Address of a runner record. -/
def addrOf (m : RunnerWithMetadata) : RunnerAddress := m.runner.address

/-- Addresses of all registered runners. -/
def addrsOf (s : State) : List RunnerAddress := s.runners.map addrOf

/-- Looks up the record registered at address `a`. -/
def findRunner (s : State) (a : RunnerAddress) : Option RunnerWithMetadata :=
  s.runners.find? (fun m => decide (addrOf m = a))

/-- Rewrites the value of every shard entry through `f`; all assignment-map
mutations in the model go through this primitive, so the key set is
untouched by construction (§4.1 `ApplyAssignments` applies batches
atomically to existing shard slots). -/
def updOwner (f : ShardId → Option RunnerAddress → Option RunnerAddress)
    (asg : List (ShardId × Option RunnerAddress)) :
    List (ShardId × Option RunnerAddress) :=
  asg.map (fun p => (p.1, f p.1 p.2))

/-- Current load of a runner: the number of shards assigned to it (§4.2). -/
def shardLoad (asg : List (ShardId × Option RunnerAddress)) (a : RunnerAddress) : Nat :=
  asg.countP (fun p => decide (p.2 = some a))

/-- Currently unassigned shards, in ascending shard-id order (the map is
kept in ascending key order). -/
def unassignedShards (asg : List (ShardId × Option RunnerAddress)) : List ShardId :=
  (asg.filter (fun p => p.2.isNone)).map Prod.fst

/-- Shards currently owned by runner `a`, in ascending shard-id order. -/
def shardsOf (asg : List (ShardId × Option RunnerAddress)) (a : RunnerAddress) : List ShardId :=
  (asg.filter (fun p => decide (p.2 = some a))).map Prod.fst

/-- Modelled from the spec: the maximum observed runner version (§4.2 step
1); `0` when no runner is registered (then there are no candidates
anyway). -/
def maxVersion (s : State) : Nat :=
  (s.runners.map (fun m => m.runner.version)).foldr max 0

/-- Modelled from the spec: only runners at the maximum observed version are
assignment candidates (*version gate*, §4.2). -/
def candidates (s : State) : List RunnerWithMetadata :=
  s.runners.filter (fun m => decide (m.runner.version = maxVersion s))

/-- A candidate as seen by the engine: its address and simulated load. -/
structure Cand where
  addr : RunnerAddress
  load : Nat
deriving DecidableEq

/-- Sort key of a candidate: load ascending, ties broken by address
lexicographic order — host characters lexicographically (the string order
compares the underlying character lists), then port (§4.2 step 2). -/
def candKey (c : Cand) : Nat ×ₗ (List Char ×ₗ Nat) :=
  toLex (c.load, toLex (c.addr.host.data, c.addr.port))

/-- Least candidate under `candKey`, i.e. the least-loaded candidate with
the deterministic address tie-break. -/
def pickMin : List Cand → Option Cand
  | [] => none
  | c :: cs =>
    some (match pickMin cs with
      | some m => if candKey m < candKey c then m else c
      | none => c)

/-- Increments the simulated load of the candidate at address `a`. -/
def bumpLoad (a : RunnerAddress) (cands : List Cand) : List Cand :=
  cands.map (fun c => if c.addr = a then { c with load := c.load + 1 } else c)

/-- Modelled from the spec: walk the unassigned shards in ascending order,
assign each to the least-loaded candidate (ties by address) and increment
that candidate's simulated load; no candidates means no output (§4.2 steps
2–4). -/
def greedy : List ShardId → List Cand → List (ShardId × RunnerAddress)
  | [], _ => []
  | sh :: rest, cands =>
    match pickMin cands with
    | none => []
    | some c => (sh, c.addr) :: greedy rest (bumpLoad c.addr cands)

/-- Candidates of a snapshot, with their current loads. -/
def candList (s : State) : List Cand :=
  (candidates s).map (fun m => { addr := addrOf m, load := shardLoad s.assignments (addrOf m) })

/-- Modelled from the spec: the assignment pass for unassigned shards
(§4.2 — the name is the engine entry point the benchmark calls). -/
def decideAssignmentsForUnassignedShards (s : State) : List (ShardId × RunnerAddress) :=
  greedy (unassignedShards s.assignments) (candList s)

/-- Ceiling division on naturals. -/
def ceilDiv (a k : Nat) : Nat := (a + k - 1) / k

/-- Modelled from the spec: the per-version-class rebalance target
`⌈|owned shards| / |runners at this version|⌉` (§4.2 Rebalance). -/
def classTarget (s : State) (v : Nat) : Nat :=
  let cls := s.runners.filter (fun m => decide (m.runner.version = v))
  let owned := s.assignments.countP (fun p => cls.any (fun m => decide (p.2 = some (addrOf m))))
  ceilDiv owned cls.length

/-- Modelled from the spec: the vacate decision for one shard slot.  A
runner exceeding its class target keeps only its lowest-id shards up to the
target — the highest-id shards are vacated first — and runners at or below
target are untouched (§4.2 Rebalance; the per-round move budget is modelled
as unlimited). -/
def vacantize (s : State) (sh : ShardId) (o : Option RunnerAddress) : Option RunnerAddress :=
  match o with
  | none => none
  | some a =>
    match findRunner s a with
    | none => some a
    | some m =>
      if sh ∈ (shardsOf s.assignments a).take (classTarget s m.runner.version) then some a
      else none

/-- Modelled from the spec: the vacate phase of a rebalance round — shards
are vacated (marked unassigned), never directly reassigned (§4.2). -/
def vacate (s : State) : State :=
  { s with assignments := updOwner (vacantize s) s.assignments }

/-- Applies the engine output: each shard mentioned in `moves` gets its new
owner, all other slots are untouched. -/
def applyMoves (moves : List (ShardId × RunnerAddress))
    (asg : List (ShardId × Option RunnerAddress)) :
    List (ShardId × Option RunnerAddress) :=
  updOwner (fun sh o =>
    match moves.find? (fun mv => decide (mv.1 = sh)) with
    | some mv => some mv.2
    | none => o) asg

/-- Modelled from the spec: a debounce-timer firing runs the engine twice —
vacate, then assign the now-unassigned shards — and commits the combined
batch (§4.3). -/
def rebalanceRound (s : State) : State :=
  let v := vacate s
  { v with assignments := applyMoves (decideAssignmentsForUnassignedShards v) v.assignments }

/-- Modelled from the spec: the control-loop transition for one event
(§4.3 event table, §4.4 eviction, §6 command table, §7 error kinds):
register adds or refreshes the record; unregister of a registered runner
removes the record and unassigns its shards in the same commit, unregister
of an unknown address is idempotent `ok` (§6); heartbeat refreshes the
timestamp and is rejected with *ClientMisuse* for unknown addresses;
a health tick evicts runners whose heartbeat is older than the liveness
threshold, unassigning their shards in the same commit; `rebalance` is the
debounced round; the persister callbacks do not touch runners or
assignments. -/
def step (cfg : Config) (s : State) : Cmd → State × Reply
  | .register r now =>
    ({ runners := { runner := r, registeredAt := now, lastHeartbeat := now } ::
        s.runners.filter (fun m => decide (¬ addrOf m = r.address)),
       assignments := s.assignments }, .ok)
  | .unregister a =>
    match findRunner s a with
    | none => (s, .ok)
    | some _ =>
      ({ runners := s.runners.filter (fun m => decide (¬ addrOf m = a)),
         assignments := updOwner (fun _ o => if o = some a then none else o)
           s.assignments }, .ok)
  | .heartbeat a now =>
    match findRunner s a with
    | none => (s, .clientMisuse)
    | some _ =>
      ({ s with runners := s.runners.map (fun m =>
          if addrOf m = a then { m with lastHeartbeat := now } else m) }, .ok)
  | .healthTick now =>
    ({ runners := s.runners.filter (fun m =>
        decide (now ≤ m.lastHeartbeat + cfg.livenessThreshold)),
       assignments := updOwner (fun _ o =>
        match o with
        | some a =>
          match findRunner s a with
          | some m => if now ≤ m.lastHeartbeat + cfg.livenessThreshold then some a else none
          | none => some a
        | none => none) s.assignments }, .ok)
  | .rebalance => (rebalanceRound s, .ok)
  | .persisted => (s, .ok)
  | .persistFailed => (s, .ok)

/-- Modelled from the spec: the boot state — no runners, every shard in
`[1, N]` present and unassigned (§3, §8 S1). -/
def initState (n : Nat) : State :=
  { runners := [], assignments := (List.range' 1 n).map (fun sh => (sh, none)) }

/-- Folds a command sequence through the control loop, keeping the state. -/
def applyAll (cfg : Config) (s : State) (cmds : List Cmd) : State :=
  cmds.foldl (fun t c => (step cfg t c).1) s

/-- Total simulated load of a candidate list. -/
def loadSum (cands : List Cand) : Nat := (cands.map Cand.load).sum

/-- Simulated load of the candidate at address `a` (`0` when absent). -/
def candLoad (cands : List Cand) (a : RunnerAddress) : Nat :=
  ((cands.find? (fun c => decide (c.addr = a))).map Cand.load).getD 0

/-- Invariant (§3): every assigned address appears in the runner record
set. -/
def Registered (s : State) : Prop :=
  ∀ sh a, (sh, some a) ∈ s.assignments → a ∈ addrsOf s

/-- Well-formedness of a state with `n` shards: the assignment map's domain
is exactly `[1, n]` in ascending order, every assigned owner is registered,
and runner records are keyed by address (no duplicate addresses). -/
structure WF (n : Nat) (s : State) : Prop where
  keys : s.assignments.map Prod.fst = List.range' 1 n
  reg : Registered s
  nodupAddrs : (addrsOf s).Nodup

namespace Fixtures

/-- Concrete address `("a", i)` used by the concrete scenarios. -/
def addr (i : Nat) : RunnerAddress := { host := "a", port := i }

/-- Concrete runner at address `i` with version `v`. -/
def runnerV (i v : Nat) : Runner := { address := addr i, version := v }

/-- Concrete runner record for runner `i` at version `v`. -/
def meta0 (i v : Nat) : RunnerWithMetadata :=
  { runner := runnerV i v, registeredAt := 0, lastHeartbeat := 0 }

/-- Registration command for runner `i` at version 1. -/
def reg (i : Nat) : Cmd := .register (runnerV i 1) 0

/-- Concrete configuration: 4 shards, liveness threshold 10. -/
def cfg0 : Config := { totalShards := 4, livenessThreshold := 10 }

/-- Concrete run refuting the pairwise balance bound: 4 shards; runners
1–3 register one at a time at the same version, a debounced rebalance round
running after each registration.  The rounds settle at loads `(2, 2, 0)`. -/
def quiescent3 : State :=
  applyAll cfg0 (initState 4) [reg 1, .rebalance, reg 2, .rebalance, reg 3, .rebalance]

/-- Snapshot for the version-gate scenario S2: runners 1..30 at version 1
owning shards 1..30, runner 31 at version 2, shards 31..40 unassigned. -/
def gateState : State :=
  { runners := meta0 31 2 ::
      (List.range' 1 30).map (fun i => meta0 i 1),
    assignments := (List.range' 1 40).map (fun sh =>
      (sh, if sh ≤ 30 then some (addr sh) else none)) }

/-- Steady state used by several witnesses: 4 shards, runners 1 and 2
registered, one rebalance round has run (each runner owns two shards). -/
def steady2 : State := applyAll cfg0 (initState 4) [reg 1, reg 2, .rebalance]

/-- Snapshot enumerating two runners in one order. -/
def permA : State :=
  { runners := [meta0 1 1, meta0 2 1],
    assignments := (initState 3).assignments }

/-- The same snapshot with the runner records enumerated in the other
order. -/
def permB : State :=
  { runners := [meta0 2 1, meta0 1 1],
    assignments := (initState 3).assignments }

end Fixtures

end ShardManager

/-- C9: guarded division is total — `divide` returns `none` exactly when the
divisor is `0`, and whenever it returns a value that value came from the raw
division applied to a provably non-zero divisor, so the raw division is
never reached with a zero divisor through `divide`. -/
theorem divide_guards_raw_division (a b : ℚ) :
    (InternalNumber.divide a b = none ↔ b = 0) ∧
    (∀ q, InternalNumber.divide a b = some q →
      b ≠ 0 ∧ q = InternalNumber.rawDivide a b) := by
  constructor
  · constructor
    · intro h
      by_contra hb
      simp [InternalNumber.divide, hb] at h
    · intro h
      simp [InternalNumber.divide, h]
  · intro q hq
    by_cases hb : b = 0
    · rw [InternalNumber.divide, if_pos hb] at hq
      exact absurd hq (by simp)
    · rw [InternalNumber.divide, if_neg hb] at hq
      exact ⟨hb, (Option.some_inj.mp hq).symm⟩

/-- Witness for C9: evaluates the guarded division at the concrete inputs
`6 / 3` (defined) and `6 / 0` (guarded). -/
theorem divide_guards_raw_division_witness :
    InternalNumber.divide 6 0 = none ∧
    ((3 : ℚ) ≠ 0 ∧ (2 : ℚ) = InternalNumber.rawDivide 6 3) :=
  ⟨(divide_guards_raw_division 6 0).1.mpr rfl,
   (divide_guards_raw_division 6 3).2 2
     (by norm_num [InternalNumber.divide, InternalNumber.rawDivide])⟩

/-- C10: `MutableHashSet.add` and `MutableHashSet.remove` mutate the set
object in place and return the same reference: after `add h r k` the
original reference `r` contains `k`, after `remove h r k` it does not,
membership of any other key `k'` at `r` is unchanged, every other reference
`r'` is untouched, and the allocation counter does not move (no copy of the
set is created — the doc examples asserting the original set is not mutated
are wrong about the code, which is what this claim records). -/
theorem mutableHashSet_add_remove_in_place {K : Type} [DecidableEq K]
    (h : MutableHashSet.Heap K) (r : Nat) (k k' : K) (hk : k' ≠ k)
    (r' : Nat) (hr : r' ≠ r) :
    (MutableHashSet.add h r k).2 = r ∧
    (MutableHashSet.remove h r k).2 = r ∧
    (MutableHashSet.add h r k).1.next = h.next ∧
    (MutableHashSet.remove h r k).1.next = h.next ∧
    MutableHashSet.has (MutableHashSet.add h r k).1 r k = true ∧
    MutableHashSet.has (MutableHashSet.remove h r k).1 r k = false ∧
    MutableHashSet.has (MutableHashSet.add h r k).1 r k' = MutableHashSet.has h r k' ∧
    MutableHashSet.has (MutableHashSet.remove h r k).1 r k' = MutableHashSet.has h r k' ∧
    (MutableHashSet.add h r k).1.store r' = h.store r' ∧
    (MutableHashSet.remove h r k).1.store r' = h.store r' := by
  refine ⟨rfl, rfl, rfl, rfl, ?_, ?_, ?_, ?_, ?_, ?_⟩
  · simp only [MutableHashSet.add, MutableHashSet.has, MutableHashSet.insertKey,
      if_pos rfl]
    by_cases hmem : k ∈ h.store r
    · simp [hmem]
    · simp [hmem]
  · simp only [MutableHashSet.remove, MutableHashSet.has, if_pos rfl]
    simp [List.mem_filter]
  · simp only [MutableHashSet.add, MutableHashSet.has, MutableHashSet.insertKey,
      if_pos rfl]
    by_cases hmem : k ∈ h.store r
    · simp [hmem]
    · simp [hmem, hk]
  · simp only [MutableHashSet.remove, MutableHashSet.has, if_pos rfl]
    simp [List.mem_filter, hk]
  · simp [MutableHashSet.add, hr]
  · simp [MutableHashSet.remove, hr]

/-- Witness for C10: a concrete heap over `Nat` keys with the set object at
reference `0` holding `[1, 2]`; adding `3` and removing `3` behave in place
as the theorem states. -/
theorem mutableHashSet_add_remove_in_place_witness :
    (1 : Nat) ≠ 3 ∧ (5 : Nat) ≠ 0 ∧
    MutableHashSet.has
      (MutableHashSet.add
        ({ store := fun _ => [1, 2], next := 1 } : MutableHashSet.Heap Nat) 0 3).1 0 3 = true :=
  ⟨by decide, by decide,
    (mutableHashSet_add_remove_in_place
      ({ store := fun _ => [1, 2], next := 1 } : MutableHashSet.Heap Nat)
      0 3 1 (by decide) 5 (by decide)).2.2.2.2.1⟩

/-- Counterexample for C8: the claim asserts that for some executions the
runner-side ping handler reports failure; the handler in the source is the
constant `Effect.succeed(true)`, so no request produces a failing reply. -/
theorem pingShard_no_failing_execution :
    ¬ ∃ r : ShardingRpc.PingShardRequest,
        ShardingRpc.pingShardHandler r = ShardingRpc.PingReply.fail := by
  rintro ⟨r, hcontra⟩
  simp [ShardingRpc.pingShardHandler] at hcontra

/-- C8 (amended): the health-ping contract allows `ok | fail` at the RPC
layer, but the runner-side `PingShard` handler itself always succeeds with
`true`; a `fail` outcome can only arise outside the handler (transport
failure or the caller-provided deadline expiring), whereupon the prober
injects `Unregister`. -/
theorem pingShard_handler_always_ok (r : ShardingRpc.PingShardRequest) :
    ShardingRpc.pingShardHandler r = ShardingRpc.PingReply.ok true := rfl

namespace ShardManager

theorem updOwner_map_fst (f : ShardId → Option RunnerAddress → Option RunnerAddress)
    (asg : List (ShardId × Option RunnerAddress)) :
    (updOwner f asg).map Prod.fst = asg.map Prod.fst := by
  unfold updOwner
  rw [List.map_map]
  exact List.map_congr_left (fun p _ => rfl)

theorem step_map_fst (cfg : Config) (s : State) (c : Cmd) :
    ((step cfg s c).1).assignments.map Prod.fst = s.assignments.map Prod.fst := by
  cases c with
  | register r now => rfl
  | unregister a =>
    cases hf : findRunner s a with
    | none => simp [step, hf]
    | some m => simp [step, hf, updOwner_map_fst]
  | heartbeat a now =>
    cases hf : findRunner s a with
    | none => simp [step, hf]
    | some m => simp [step, hf]
  | healthTick now => simp [step, updOwner_map_fst]
  | rebalance => simp [step, rebalanceRound, vacate, applyMoves, updOwner_map_fst]
  | persisted => rfl
  | persistFailed => rfl

theorem applyAll_cons (cfg : Config) (s : State) (c : Cmd) (cs : List Cmd) :
    applyAll cfg s (c :: cs) = applyAll cfg (step cfg s c).1 cs := rfl

theorem applyAll_map_fst (cfg : Config) (cmds : List Cmd) :
    ∀ s : State, (applyAll cfg s cmds).assignments.map Prod.fst = s.assignments.map Prod.fst := by
  induction cmds with
  | nil => intro s; rfl
  | cons c cs ih =>
    intro s
    rw [applyAll_cons, ih, step_map_fst]

/-- C2: after any sequence of commands (register, unregister, heartbeat,
health tick, rebalance, persist events) the domain of the assignment map is
exactly the shard ids `[1, N]` — every shard in `[1, N]` is present (its
value an address or the unassigned marker `none`) and no other shard is
present. -/
theorem shardManager_domain_exact (cfg : Config) (cmds : List Cmd) :
    (applyAll cfg (initState cfg.totalShards) cmds).assignments.map Prod.fst
      = List.range' 1 cfg.totalShards := by
  rw [applyAll_map_fst]
  unfold initState
  rw [List.map_map]
  have h : (Prod.fst ∘ fun sh => ((sh : ShardId), (none : Option RunnerAddress))) = id := rfl
  rw [h, List.map_id]

/-- Counterexample for C7: the claim says `Unregister` of a non-existent
runner returns a typed ClientMisuse error; in the model (following the §6
command table, which declares `Unregister` idempotent with output `ok`) it
returns `ok` — here evaluated at a concrete state with two registered
runners and the unknown address `("a", 9)`. -/
theorem shardManager_unregister_unknown_ok :
    step Fixtures.cfg0 Fixtures.steady2 (.unregister (Fixtures.addr 9))
        = (Fixtures.steady2, .ok)
      ∧ Reply.ok ≠ Reply.clientMisuse := ⟨by decide, by decide⟩

/-- C7 (amended): client misuse is rejected atomically for `Heartbeat` —
an unknown address yields the typed ClientMisuse reply and the state
(runner records and assignment map) is unchanged; `Unregister` of a
non-existent runner is idempotent, returning `ok` with the state unchanged,
as the §6 command table states. -/
theorem shardManager_client_misuse_amended (cfg : Config) (s : State) (a : RunnerAddress)
    (now : Nat) (h : findRunner s a = none) :
    step cfg s (.heartbeat a now) = (s, .clientMisuse) ∧
    step cfg s (.unregister a) = (s, .ok) := by
  constructor
  · simp [step, h]
  · simp [step, h]

/-- Witness for C7: the amended behaviour at a concrete steady state and
the concrete unknown address `("a", 9)`. -/
theorem shardManager_client_misuse_amended_witness :
    step Fixtures.cfg0 Fixtures.steady2 (.heartbeat (Fixtures.addr 9) 3)
        = (Fixtures.steady2, .clientMisuse) ∧
    step Fixtures.cfg0 Fixtures.steady2 (.unregister (Fixtures.addr 9))
        = (Fixtures.steady2, .ok) :=
  shardManager_client_misuse_amended Fixtures.cfg0 Fixtures.steady2 (Fixtures.addr 9) 3
    (by decide)

end ShardManager

namespace ShardManager

theorem candKey_inj {c d : Cand} (h : candKey c = candKey d) : c = d := by
  unfold candKey at h
  have h1 : (c.load, toLex (c.addr.host.data, c.addr.port))
      = (d.load, toLex (d.addr.host.data, d.addr.port)) := congrArg ofLex h
  have hload : c.load = d.load := congrArg Prod.fst h1
  have h2 : toLex (c.addr.host.data, c.addr.port) = toLex (d.addr.host.data, d.addr.port) :=
    congrArg Prod.snd h1
  have h3 : (c.addr.host.data, c.addr.port) = (d.addr.host.data, d.addr.port) :=
    congrArg ofLex h2
  have hhost : c.addr.host = d.addr.host := String.ext (congrArg Prod.fst h3)
  have hport : c.addr.port = d.addr.port := congrArg Prod.snd h3
  have haddr : c.addr = d.addr := by
    cases hc : c.addr
    cases hd : d.addr
    rw [hc, hd] at hhost hport
    simp_all
  cases c
  cases d
  simp_all

theorem pickMin_eq_none {l : List Cand} : pickMin l = none ↔ l = [] := by
  cases l with
  | nil => simp [pickMin]
  | cons c cs => simp [pickMin]

theorem pickMin_mem {l : List Cand} {m : Cand} (h : pickMin l = some m) : m ∈ l := by
  induction l generalizing m with
  | nil => simp [pickMin] at h
  | cons c cs ih =>
    rw [pickMin] at h
    cases hcs : pickMin cs with
    | none =>
      rw [hcs] at h
      simp at h
      simp [h]
    | some m2 =>
      rw [hcs] at h
      simp at h
      by_cases hlt : candKey m2 < candKey c
      · rw [if_pos hlt] at h
        exact List.mem_cons_of_mem c (h ▸ ih hcs)
      · rw [if_neg hlt] at h
        simp [h]

theorem pickMin_le {l : List Cand} {m : Cand} (h : pickMin l = some m) :
    ∀ c ∈ l, candKey m ≤ candKey c := by
  induction l generalizing m with
  | nil => simp [pickMin] at h
  | cons c cs ih =>
    rw [pickMin] at h
    cases hcs : pickMin cs with
    | none =>
      rw [hcs] at h
      simp at h
      have hnil : cs = [] := pickMin_eq_none.mp hcs
      subst hnil
      intro x hx
      simp at hx
      subst hx
      exact le_of_eq (congrArg candKey h.symm)
    | some m2 =>
      rw [hcs] at h
      simp at h
      by_cases hlt : candKey m2 < candKey c
      · rw [if_pos hlt] at h
        subst h
        intro x hx
        rcases List.mem_cons.mp hx with h1 | h2
        · exact h1 ▸ le_of_lt hlt
        · exact ih hcs x h2
      · rw [if_neg hlt] at h
        subst h
        intro x hx
        rcases List.mem_cons.mp hx with h1 | h2
        · exact le_of_eq (congrArg candKey h1.symm)
        · exact le_trans (le_of_not_lt hlt) (ih hcs x h2)

theorem pickMin_perm {l₁ l₂ : List Cand} (h : l₁.Perm l₂) : pickMin l₁ = pickMin l₂ := by
  cases h1 : pickMin l₁ with
  | none =>
    have : l₁ = [] := pickMin_eq_none.mp h1
    subst this
    have : l₂ = [] := h.nil_eq.symm
    subst this
    rfl
  | some m1 =>
    cases h2 : pickMin l₂ with
    | none =>
      have : l₂ = [] := pickMin_eq_none.mp h2
      subst this
      have : l₁ = [] := h.eq_nil
      subst this
      simp [pickMin] at h1
    | some m2 =>
      have hm1 : m1 ∈ l₂ := h.mem_iff.mp (pickMin_mem h1)
      have hm2 : m2 ∈ l₁ := h.mem_iff.mpr (pickMin_mem h2)
      have hle1 : candKey m1 ≤ candKey m2 := pickMin_le h1 m2 hm2
      have hle2 : candKey m2 ≤ candKey m1 := pickMin_le h2 m1 hm1
      exact congrArg some (candKey_inj (le_antisymm hle1 hle2))

theorem bumpLoad_map_addr (a : RunnerAddress) (cands : List Cand) :
    (bumpLoad a cands).map Cand.addr = cands.map Cand.addr := by
  unfold bumpLoad
  rw [List.map_map]
  apply List.map_congr_left
  intro c _
  by_cases hc : c.addr = a
  · simp [hc]
  · simp [hc]

theorem greedy_perm {cands₁ cands₂ : List Cand} (U : List ShardId) (h : cands₁.Perm cands₂) :
    greedy U cands₁ = greedy U cands₂ := by
  induction U generalizing cands₁ cands₂ with
  | nil => rfl
  | cons sh rest ih =>
    rw [greedy, greedy, pickMin_perm h]
    cases hp : pickMin cands₂ with
    | none => rfl
    | some c =>
      show (sh, c.addr) :: greedy rest (bumpLoad c.addr cands₁)
          = (sh, c.addr) :: greedy rest (bumpLoad c.addr cands₂)
      have hb : (bumpLoad c.addr cands₁).Perm (bumpLoad c.addr cands₂) := h.map _
      rw [ih hb]

theorem greedy_targets {U : List ShardId} {cands : List Cand} {sh : ShardId}
    {a : RunnerAddress} (h : (sh, a) ∈ greedy U cands) : a ∈ cands.map Cand.addr := by
  induction U generalizing cands with
  | nil => simp [greedy] at h
  | cons sh0 rest ih =>
    rw [greedy] at h
    cases hp : pickMin cands with
    | none => rw [hp] at h; simp at h
    | some c =>
      rw [hp] at h
      rcases List.mem_cons.mp h with h1 | h2
      · have ha : a = c.addr := congrArg Prod.snd h1
        subst ha
        exact List.mem_map_of_mem Cand.addr (pickMin_mem hp)
      · have := ih h2
        rwa [bumpLoad_map_addr] at this

theorem candList_map_addr (s : State) :
    (candList s).map Cand.addr = (candidates s).map addrOf := by
  unfold candList
  rw [List.map_map]
  exact List.map_congr_left (fun m _ => rfl)

end ShardManager

namespace ShardManager

theorem foldr_max_perm {l₁ l₂ : List Nat} (h : l₁.Perm l₂) (b : Nat) :
    l₁.foldr max b = l₂.foldr max b := by
  induction h with
  | nil => rfl
  | cons x hp ih => simp only [List.foldr_cons, ih]
  | swap x y l => simp only [List.foldr_cons]; exact max_left_comm y x (l.foldr max b)
  | trans h1 h2 ih1 ih2 => rw [ih1, ih2]

theorem engine_target_registered {s : State} {sh : ShardId} {a : RunnerAddress}
    (h : (sh, a) ∈ decideAssignmentsForUnassignedShards s) :
    ∃ m ∈ s.runners, addrOf m = a ∧ m.runner.version = maxVersion s := by
  have h1 : a ∈ (candList s).map Cand.addr := greedy_targets h
  rw [candList_map_addr] at h1
  rcases List.mem_map.mp h1 with ⟨m, hm, hma⟩
  rcases List.mem_filter.mp hm with ⟨hmem, hver⟩
  exact ⟨m, hmem, hma, of_decide_eq_true hver⟩

theorem engine_empty_runners {s : State} (h : s.runners = []) :
    decideAssignmentsForUnassignedShards s = [] := by
  have hc : candList s = [] := by
    unfold candList candidates
    rw [h]
    rfl
  unfold decideAssignmentsForUnassignedShards
  rw [hc]
  cases unassignedShards s.assignments with
  | nil => rfl
  | cons sh rest => rw [greedy]; rfl

/-- C5: the version gate — every move produced by the assignment pass for
unassigned shards targets a registered runner whose version is the maximum
observed version; with no registered runners the returned move list is
empty (shards stay unassigned); and on the concrete S2 snapshot (runners
1..30 at version 1, runner 31 at version 2, shards 31..40 unassigned) all
ten unassigned shards are assigned to runner 31. -/
theorem shardManager_version_gate :
    (∀ (s : State) (sh : ShardId) (a : RunnerAddress),
        (sh, a) ∈ decideAssignmentsForUnassignedShards s →
        ∃ m ∈ s.runners, addrOf m = a ∧ m.runner.version = maxVersion s) ∧
    (∀ s : State, s.runners = [] → decideAssignmentsForUnassignedShards s = []) ∧
    decideAssignmentsForUnassignedShards Fixtures.gateState
      = (List.range' 31 10).map (fun sh => (sh, Fixtures.addr 31)) :=
  ⟨fun _ _ _ h => engine_target_registered h,
   fun _ h => engine_empty_runners h,
   by decide⟩

/-- Witness for C5: the gate property applied at the concrete S2 snapshot
and its concrete move `(31, ("a", 31))`. -/
theorem shardManager_version_gate_witness :
    ∃ m ∈ Fixtures.gateState.runners, addrOf m = Fixtures.addr 31 ∧
      m.runner.version = maxVersion Fixtures.gateState :=
  shardManager_version_gate.1 Fixtures.gateState 31 (Fixtures.addr 31) (by decide)

/-- C4: determinism — running the manager is a function of the initial
state and the command list (two instances fed equal inputs produce equal
states, hence equal assignment maps), and the assignment engine depends
only on the snapshot content: permuting the enumeration order of the runner
records (as two hash-map iterations might) does not change its output,
because ties are broken deterministically by address. -/
theorem shardManager_engine_deterministic :
    (∀ (cfg : Config) (s₁ s₂ : State) (cmds₁ cmds₂ : List Cmd), s₁ = s₂ → cmds₁ = cmds₂ →
        applyAll cfg s₁ cmds₁ = applyAll cfg s₂ cmds₂) ∧
    (∀ s₁ s₂ : State, s₁.runners.Perm s₂.runners → s₁.assignments = s₂.assignments →
        decideAssignmentsForUnassignedShards s₁ = decideAssignmentsForUnassignedShards s₂) := by
  constructor
  · intro cfg s₁ s₂ cmds₁ cmds₂ hs hc
    rw [hs, hc]
  · intro s₁ s₂ hr ha
    have hmax : maxVersion s₁ = maxVersion s₂ := by
      unfold maxVersion
      exact foldr_max_perm (hr.map fun m => m.runner.version) 0
    have hcand : (candidates s₁).Perm (candidates s₂) := by
      unfold candidates
      rw [hmax]
      exact hr.filter _
    have hlist : (candList s₁).Perm (candList s₂) := by
      unfold candList
      rw [ha]
      exact hcand.map _
    unfold decideAssignmentsForUnassignedShards
    rw [ha]
    exact greedy_perm _ hlist

/-- Witness for C4: two concrete snapshots that enumerate the same two
runner records in opposite orders produce the same engine output. -/
theorem shardManager_engine_deterministic_witness :
    decideAssignmentsForUnassignedShards Fixtures.permA
      = decideAssignmentsForUnassignedShards Fixtures.permB :=
  shardManager_engine_deterministic.2 Fixtures.permA Fixtures.permB (by decide) rfl

end ShardManager

namespace ShardManager

theorem mem_addrsOf {s : State} {a : RunnerAddress} :
    a ∈ addrsOf s ↔ ∃ m ∈ s.runners, addrOf m = a := by
  simp [addrsOf, List.mem_map]

theorem findRunner_isSome_of_mem {s : State} {a : RunnerAddress} (h : a ∈ addrsOf s) :
    (findRunner s a).isSome := by
  rcases mem_addrsOf.mp h with ⟨m, hm, hma⟩
  unfold findRunner
  rw [List.find?_isSome]
  exact ⟨m, hm, by simp [hma]⟩

theorem findRunner_mem {s : State} {a : RunnerAddress} {m : RunnerWithMetadata}
    (h : findRunner s a = some m) : m ∈ s.runners ∧ addrOf m = a := by
  refine ⟨List.mem_of_find?_eq_some h, ?_⟩
  have := List.find?_some h
  simpa using this

theorem mem_updOwner {f : ShardId → Option RunnerAddress → Option RunnerAddress}
    {asg : List (ShardId × Option RunnerAddress)} {sh : ShardId} {o : Option RunnerAddress} :
    (sh, o) ∈ updOwner f asg ↔ ∃ o₀, (sh, o₀) ∈ asg ∧ o = f sh o₀ := by
  unfold updOwner
  constructor
  · intro h
    rcases List.mem_map.mp h with ⟨⟨sh0, o0⟩, hp, he⟩
    have h1 : sh0 = sh := congrArg Prod.fst he
    have h2 : f sh0 o0 = o := congrArg Prod.snd he
    subst h1
    exact ⟨o0, hp, h2.symm⟩
  · rintro ⟨o0, hp, ho⟩
    have : ((sh, o) : ShardId × Option RunnerAddress) = (sh, f sh o0) := by rw [ho]
    rw [this]
    exact List.mem_map_of_mem (fun p => (p.1, f p.1 p.2)) hp

theorem vacate_runners (s : State) : (vacate s).runners = s.runners := rfl

theorem vacate_registered {s : State} (hs : Registered s) : Registered (vacate s) := by
  intro sh a hmem
  rcases mem_updOwner.mp hmem with ⟨o0, h0, ho⟩
  cases o0 with
  | none => simp [vacantize] at ho
  | some b =>
    cases hfb : findRunner s b with
    | none =>
      rw [vacantize, hfb] at ho
      have hab : a = b := by simpa using ho
      subst hab
      exact hs sh a h0
    | some m =>
      rw [vacantize, hfb] at ho
      have ho2 : some a =
          if sh ∈ (shardsOf s.assignments b).take (classTarget s m.runner.version) then some b
          else none := ho
      by_cases hk : sh ∈ (shardsOf s.assignments b).take (classTarget s m.runner.version)
      · rw [if_pos hk] at ho2
        have hab : a = b := by simpa using ho2
        subst hab
        exact hs sh a h0
      · rw [if_neg hk] at ho2
        simp at ho2

theorem step_registered (cfg : Config) (s : State) (c : Cmd) (hs : Registered s) :
    Registered (step cfg s c).1 := by
  cases c with
  | register r now =>
    intro sh a hmem
    have ha := hs sh a hmem
    rcases mem_addrsOf.mp ha with ⟨m, hm, hma⟩
    by_cases hra : a = r.address
    · subst hra
      exact mem_addrsOf.mpr ⟨_, List.mem_cons_self _ _, rfl⟩
    · refine mem_addrsOf.mpr ⟨m, List.mem_cons_of_mem _ (List.mem_filter.mpr ⟨hm, ?_⟩), hma⟩
      simp [hma, hra]
  | unregister a0 =>
    cases hf : findRunner s a0 with
    | none => simpa [step, hf] using hs
    | some m0 =>
      intro sh a hmem
      simp only [step, hf] at hmem ⊢
      rcases mem_updOwner.mp hmem with ⟨o0, h0, ho⟩
      by_cases ha0 : o0 = some a0
      · rw [if_pos ha0] at ho
        simp at ho
      · rw [if_neg ha0] at ho
        have hoa : o0 = some a := ho.symm
        subst hoa
        have haa0 : ¬ a = a0 := fun hcontra => ha0 (by rw [hcontra])
        have ha := hs sh a h0
        rcases mem_addrsOf.mp ha with ⟨m, hm, hma⟩
        exact mem_addrsOf.mpr ⟨m, List.mem_filter.mpr ⟨hm, by simp [hma, haa0]⟩, hma⟩
  | heartbeat a0 now =>
    cases hf : findRunner s a0 with
    | none => simpa [step, hf] using hs
    | some m0 =>
      intro sh a hmem
      simp only [step, hf] at hmem ⊢
      have ha := hs sh a hmem
      rcases mem_addrsOf.mp ha with ⟨m, hm, hma⟩
      refine mem_addrsOf.mpr ⟨_, List.mem_map_of_mem _ hm, ?_⟩
      show addrOf (if addrOf m = a0 then { m with lastHeartbeat := now } else m) = a
      by_cases hm0 : addrOf m = a0
      · rw [if_pos hm0]
        exact hma
      · rw [if_neg hm0]
        exact hma
  | healthTick now =>
    intro sh a hmem
    simp only [step] at hmem ⊢
    rcases mem_updOwner.mp hmem with ⟨o0, h0, ho⟩
    cases o0 with
    | none => simp at ho
    | some b =>
      have ho2 : some a = (match findRunner s b with
          | some m => if now ≤ m.lastHeartbeat + cfg.livenessThreshold then some b else none
          | none => some b) := ho
      cases hfb : findRunner s b with
      | none =>
        have hb : b ∈ addrsOf s := hs sh b h0
        have hsome := findRunner_isSome_of_mem hb
        rw [hfb] at hsome
        simp at hsome
      | some m =>
        rw [hfb] at ho2
        have ho3 : some a =
            if now ≤ m.lastHeartbeat + cfg.livenessThreshold then some b else none := ho2
        by_cases hfresh : now ≤ m.lastHeartbeat + cfg.livenessThreshold
        · rw [if_pos hfresh] at ho3
          have hab : a = b := by simpa using ho3
          subst hab
          rcases findRunner_mem hfb with ⟨hm, hma⟩
          exact mem_addrsOf.mpr ⟨m, List.mem_filter.mpr ⟨hm, by simpa using hfresh⟩, hma⟩
        · rw [if_neg hfresh] at ho3
          simp at ho3
  | rebalance =>
    intro sh a hmem
    simp only [step, rebalanceRound, applyMoves] at hmem ⊢
    rcases mem_updOwner.mp hmem with ⟨o0, h0, ho⟩
    cases hfm : (decideAssignmentsForUnassignedShards (vacate s)).find?
        (fun mv => decide (mv.1 = sh)) with
    | some mv =>
      rw [hfm] at ho
      have hamv : a = mv.2 := by simpa using ho
      subst hamv
      have hmv : mv ∈ decideAssignmentsForUnassignedShards (vacate s) :=
        List.mem_of_find?_eq_some hfm
      have hmv2 : (mv.1, mv.2) ∈ decideAssignmentsForUnassignedShards (vacate s) := hmv
      rcases engine_target_registered hmv2 with ⟨m, hm, hma, _⟩
      rw [vacate_runners] at hm
      exact mem_addrsOf.mpr ⟨m, hm, hma⟩
    | none =>
      rw [hfm] at ho
      have hoa : o0 = some a := ho.symm
      subst hoa
      have := vacate_registered hs sh a h0
      rcases mem_addrsOf.mp this with ⟨m, hm, hma⟩
      rw [vacate_runners] at hm
      exact mem_addrsOf.mpr ⟨m, hm, hma⟩
  | persisted => exact hs
  | persistFailed => exact hs

theorem applyAll_registered (cfg : Config) (cmds : List Cmd) :
    ∀ s : State, Registered s → Registered (applyAll cfg s cmds) := by
  induction cmds with
  | nil => intro s hs; exact hs
  | cons c cs ih =>
    intro s hs
    rw [applyAll_cons]
    exact ih _ (step_registered cfg s c hs)

theorem initState_registered (n : Nat) : Registered (initState n) := by
  intro sh a hmem
  unfold initState at hmem
  rcases List.mem_map.mp hmem with ⟨x, _, he⟩
  exact absurd (congrArg Prod.snd he) (by simp)

/-- C3: after every committed transition every assigned shard points at a
currently registered runner (proved for every command sequence from the
boot state), and the commit performed by `Unregister(a)` (for a registered
`a`) marks every shard owned by `a` unassigned in the same commit that
removes the runner record, so no reachable state has a shard pointing at an
unregistered runner. -/
theorem shardManager_assigned_owner_registered (cfg : Config) :
    (∀ (cmds : List Cmd) (sh : ShardId) (a : RunnerAddress),
        (sh, some a) ∈ (applyAll cfg (initState cfg.totalShards) cmds).assignments →
        a ∈ addrsOf (applyAll cfg (initState cfg.totalShards) cmds)) ∧
    (∀ (s : State) (a : RunnerAddress) (sh : ShardId), a ∈ addrsOf s →
        (sh, some a) ∈ s.assignments →
        (sh, none) ∈ ((step cfg s (.unregister a)).1).assignments ∧
        a ∉ addrsOf (step cfg s (.unregister a)).1) := by
  constructor
  · intro cmds sh a hmem
    exact applyAll_registered cfg cmds _ (initState_registered cfg.totalShards) sh a hmem
  · intro s a sh ha hmem
    have hf := findRunner_isSome_of_mem ha
    cases hfr : findRunner s a with
    | none => rw [hfr] at hf; simp at hf
    | some m =>
      simp only [step, hfr]
      constructor
      · exact mem_updOwner.mpr ⟨some a, hmem, by simp⟩
      · intro hcontra
        rcases mem_addrsOf.mp hcontra with ⟨m2, hm2, hma2⟩
        rcases List.mem_filter.mp hm2 with ⟨_, hpred⟩
        simp [hma2] at hpred

/-- Witness for C3: in the concrete steady state with runners 1 and 2,
shard 1 is assigned to runner 1 and that owner is indeed registered. -/
theorem shardManager_assigned_owner_registered_witness :
    Fixtures.addr 1 ∈ addrsOf Fixtures.steady2 :=
  (shardManager_assigned_owner_registered Fixtures.cfg0).1
    [Fixtures.reg 1, Fixtures.reg 2, .rebalance] 1 (Fixtures.addr 1) (by decide)

end ShardManager

namespace ShardManager

theorem step_unregister_runners (cfg : Config) (s : State) (a : RunnerAddress) :
    ((step cfg s (.unregister a)).1).runners
      = s.runners.filter (fun m => decide (¬ addrOf m = a)) := by
  cases hf : findRunner s a with
  | some m => simp [step, hf]
  | none =>
    simp only [step, hf]
    symm
    rw [List.filter_eq_self]
    intro m hm
    simp only [decide_eq_true_eq]
    intro hcontra
    have hsome : (findRunner s a).isSome := by
      unfold findRunner
      rw [List.find?_isSome]
      exact ⟨m, hm, by simp [hcontra]⟩
    rw [hf] at hsome
    simp at hsome

theorem applyAll_unregister_sub (cfg : Config) (l : List RunnerAddress) :
    ∀ s : State, ∀ m ∈ (applyAll cfg s (l.map Cmd.unregister)).runners,
      m ∈ s.runners ∧ addrOf m ∉ l := by
  induction l with
  | nil => intro s m hm; exact ⟨hm, by simp⟩
  | cons a rest ih =>
    intro s m hm
    rw [List.map_cons, applyAll_cons] at hm
    rcases ih _ m hm with ⟨hm2, hnot⟩
    rw [step_unregister_runners] at hm2
    rcases List.mem_filter.mp hm2 with ⟨hm3, hpred⟩
    simp only [decide_eq_true_eq] at hpred
    refine ⟨hm3, ?_⟩
    rw [List.mem_cons]
    rintro (h1 | h2)
    · exact hpred h1
    · exact hnot h2

theorem unregister_all_empty (cfg : Config) (s : State) :
    (applyAll cfg s ((addrsOf s).map Cmd.unregister)).runners = [] := by
  cases hr : (applyAll cfg s ((addrsOf s).map Cmd.unregister)).runners with
  | nil => rfl
  | cons m rest =>
    have hm : m ∈ (applyAll cfg s ((addrsOf s).map Cmd.unregister)).runners := by
      rw [hr]
      exact List.mem_cons_self m rest
    rcases applyAll_unregister_sub cfg (addrsOf s) s m hm with ⟨hmem, hnot⟩
    exact absurd (List.mem_map_of_mem addrOf hmem) hnot

theorem all_unassigned_of_empty {s : State} (hreg : Registered s) (hempty : s.runners = []) :
    ∀ p ∈ s.assignments, p.2 = none := by
  rintro ⟨sh, o⟩ hmem
  cases o with
  | none => rfl
  | some a =>
    have ha := hreg sh a hmem
    rw [mem_addrsOf] at ha
    rcases ha with ⟨m, hm, _⟩
    rw [hempty] at hm
    simp at hm

/-- C6: mass churn — from any state reached by a command sequence (in
particular a steady state with runners `r1..r50` registered and all shards
assigned), unregistering every registered runner and letting one debounce
window elapse (a final rebalance round) leaves every shard in `[1, N]`
mapped to the unassigned marker. -/
theorem shardManager_mass_churn (cfg : Config) (cmds : List Cmd) :
    ∀ p ∈ (applyAll cfg (applyAll cfg (initState cfg.totalShards) cmds)
        (((addrsOf (applyAll cfg (initState cfg.totalShards) cmds)).map Cmd.unregister)
          ++ [Cmd.rebalance])).assignments,
      p.2 = none := by
  set u := applyAll cfg (initState cfg.totalShards) cmds with hu
  have hreg_u : Registered u :=
    applyAll_registered cfg cmds _ (initState_registered cfg.totalShards)
  have happ : applyAll cfg u (((addrsOf u).map Cmd.unregister) ++ [Cmd.rebalance])
      = (step cfg (applyAll cfg u ((addrsOf u).map Cmd.unregister)) .rebalance).1 := by
    unfold applyAll
    rw [List.foldl_append]
    rfl
  rw [happ]
  set t1 := applyAll cfg u ((addrsOf u).map Cmd.unregister) with ht1
  have hreg_t1 : Registered t1 := applyAll_registered cfg _ u hreg_u
  have hempty : t1.runners = [] := unregister_all_empty cfg u
  have hreg_t : Registered (step cfg t1 .rebalance).1 := step_registered cfg t1 _ hreg_t1
  have hrunners : ((step cfg t1 .rebalance).1).runners = t1.runners := rfl
  exact all_unassigned_of_empty hreg_t (by rw [hrunners, hempty])

/-- Witness for C6: concretely, from the steady state with runners 1 and 2
owning all four shards, unregistering both and running the debounced round
leaves shard 1 (indeed every shard) unassigned. -/
theorem shardManager_mass_churn_witness :
    ((1 : ShardId), (none : Option RunnerAddress)) ∈ (applyAll Fixtures.cfg0 Fixtures.steady2
        (((addrsOf Fixtures.steady2).map Cmd.unregister) ++ [Cmd.rebalance])).assignments
    ∧ ((1 : ShardId), (none : Option RunnerAddress)).2 = none :=
  ⟨by decide,
   shardManager_mass_churn Fixtures.cfg0 [Fixtures.reg 1, Fixtures.reg 2, .rebalance]
     (1, none) (by decide)⟩

end ShardManager

namespace ShardManager

theorem countP_or_le {α : Type} (p q : α → Bool) (l : List α) :
    l.countP (fun x => p x || q x) ≤ l.countP p + l.countP q := by
  induction l with
  | nil => simp
  | cons x rest ih =>
    rw [List.countP_cons, List.countP_cons, List.countP_cons]
    cases hp : p x <;> cases hq : q x <;> simp [hp, hq] <;> omega

theorem countP_disjoint {α : Type} (p q : α → Bool) (l : List α)
    (hdisj : ∀ x ∈ l, ¬(p x = true ∧ q x = true)) :
    l.countP (fun x => p x || q x) = l.countP p + l.countP q := by
  induction l with
  | nil => simp
  | cons x rest ih =>
    have hx := hdisj x (List.mem_cons_self x rest)
    have ihr := ih (fun y hy => hdisj y (List.mem_cons_of_mem x hy))
    rw [List.countP_cons, List.countP_cons, List.countP_cons, ihr]
    cases hp : p x <;> cases hq : q x <;> simp [hp, hq] at hx ⊢ <;> omega

theorem countP_eq_single (xs : List ShardId) (k : ShardId) (hxs : xs.Nodup) (hk : k ∈ xs) :
    xs.countP (fun x => decide (x = k)) = 1 := by
  induction xs with
  | nil => simp at hk
  | cons x rest ih =>
    rw [List.countP_cons]
    rcases List.nodup_cons.mp hxs with ⟨hxmem, hrest⟩
    rcases List.mem_cons.mp hk with h1 | h2
    · subst h1
      have hz : rest.countP (fun y => decide (y = k)) = 0 := by
        rw [List.countP_eq_zero]
        intro y hy
        simp only [decide_eq_true_eq]
        intro hcontra
        exact hxmem (hcontra ▸ hy)
      simp [hz]
    · have hx : ¬(x = k) := fun hcontra => hxmem (hcontra ▸ h2)
      rw [ih hrest h2]
      simp [hx]

theorem countP_mem_le (xs ks : List ShardId) (hxs : xs.Nodup) (hks : ks.Nodup) :
    xs.countP (fun x => decide (x ∈ ks)) ≤ ks.length := by
  induction ks with
  | nil => simp
  | cons k rest ih =>
    have hsplit : xs.countP (fun x => decide (x ∈ k :: rest))
        = xs.countP (fun x => decide (x = k) || decide (x ∈ rest)) := by
      apply List.countP_congr
      intro x _
      simp [List.mem_cons]
    rw [hsplit]
    have h1 : xs.countP (fun x => decide (x = k)) ≤ 1 := by
      by_cases hk : k ∈ xs
      · exact le_of_eq (countP_eq_single xs k hxs hk)
      · have : xs.countP (fun x => decide (x = k)) = 0 := by
          rw [List.countP_eq_zero]
          intro y hy
          simp only [decide_eq_true_eq]
          intro hcontra
          exact hk (hcontra ▸ hy)
        omega
    have h2 := ih (List.nodup_cons.mp hks).2
    have h3 := countP_or_le (fun x => decide (x = k)) (fun x => decide (x ∈ rest)) xs
    simp only [List.length_cons]
    omega

theorem countP_mem_eq (xs ks : List ShardId) (hxs : xs.Nodup) (hks : ks.Nodup)
    (hsub : ∀ k ∈ ks, k ∈ xs) :
    xs.countP (fun x => decide (x ∈ ks)) = ks.length := by
  induction ks with
  | nil => simp
  | cons k rest ih =>
    rcases List.nodup_cons.mp hks with ⟨hkmem, hrest⟩
    have hsplit : xs.countP (fun x => decide (x ∈ k :: rest))
        = xs.countP (fun x => decide (x = k) || decide (x ∈ rest)) := by
      apply List.countP_congr
      intro x _
      simp [List.mem_cons]
    rw [hsplit]
    rw [countP_disjoint]
    · rw [countP_eq_single xs k hxs (hsub k (List.mem_cons_self k rest)),
        ih hrest (fun y hy => hsub y (List.mem_cons_of_mem k hy))]
      simp [Nat.add_comm]
    · intro x _
      simp only [decide_eq_true_eq]
      rintro ⟨h1, h2⟩
      exact hkmem (h1 ▸ h2)

theorem le_mul_ceilDiv (n k : Nat) (hk : 1 ≤ k) : n ≤ k * ceilDiv n k := by
  unfold ceilDiv
  have h := Nat.div_add_mod (n + k - 1) k
  have hmod : (n + k - 1) % k < k := Nat.mod_lt _ (by omega)
  omega

theorem ceilDiv_mono_left {a b : Nat} (k : Nat) (h : a ≤ b) : ceilDiv a k ≤ ceilDiv b k := by
  unfold ceilDiv
  exact Nat.div_le_div_right (by omega)

theorem step_nodup_addrs (cfg : Config) (s : State) (c : Cmd)
    (hs : (addrsOf s).Nodup) : (addrsOf (step cfg s c).1).Nodup := by
  cases c with
  | register r now =>
    show (addrsOf { runners := _ :: s.runners.filter _, assignments := _ }).Nodup
    rw [addrsOf, List.map_cons, List.nodup_cons]
    constructor
    · intro hcontra
      rcases List.mem_map.mp hcontra with ⟨m, hm, hma⟩
      rcases List.mem_filter.mp hm with ⟨_, hpred⟩
      simp only [decide_eq_true_eq] at hpred
      exact hpred hma
    · exact ((List.filter_sublist s.runners).map addrOf).nodup hs
  | unregister a =>
    cases hf : findRunner s a with
    | none => simpa [step, hf] using hs
    | some m =>
      simp only [step, hf]
      exact ((List.filter_sublist s.runners).map addrOf).nodup hs
  | heartbeat a now =>
    cases hf : findRunner s a with
    | none => simpa [step, hf] using hs
    | some m =>
      simp only [step, hf]
      have heq : addrsOf { s with runners := s.runners.map (fun m =>
          if addrOf m = a then { m with lastHeartbeat := now } else m) } = addrsOf s := by
        rw [addrsOf, addrsOf, List.map_map]
        apply List.map_congr_left
        intro m _
        by_cases hm : addrOf m = a
        · simp only [Function.comp_apply, if_pos hm]
          exact hm.symm ▸ rfl
        · simp only [Function.comp_apply, if_neg hm]
      rw [heq]
      exact hs
  | healthTick now =>
    simp only [step]
    exact ((List.filter_sublist s.runners).map addrOf).nodup hs
  | rebalance => exact hs
  | persisted => exact hs
  | persistFailed => exact hs

theorem applyAll_nodup_addrs (cfg : Config) (cmds : List Cmd) :
    ∀ s : State, (addrsOf s).Nodup → (addrsOf (applyAll cfg s cmds)).Nodup := by
  induction cmds with
  | nil => intro s hs; exact hs
  | cons c cs ih =>
    intro s hs
    rw [applyAll_cons]
    exact ih _ (step_nodup_addrs cfg s c hs)

theorem applyAll_wf (cfg : Config) (cmds : List Cmd) :
    WF cfg.totalShards (applyAll cfg (initState cfg.totalShards) cmds) := by
  refine ⟨?_, ?_, ?_⟩
  · rw [applyAll_map_fst]
    unfold initState
    rw [List.map_map]
    have h : (Prod.fst ∘ fun sh => ((sh : ShardId), (none : Option RunnerAddress))) = id := rfl
    rw [h, List.map_id]
  · exact applyAll_registered cfg cmds _ (initState_registered cfg.totalShards)
  · apply applyAll_nodup_addrs
    simp [addrsOf, initState]

end ShardManager

namespace ShardManager

theorem shardsOf_nodup {asg : List (ShardId × Option RunnerAddress)} {a : RunnerAddress}
    (hkeys : (asg.map Prod.fst).Nodup) : (shardsOf asg a).Nodup :=
  (((List.filter_sublist asg).map Prod.fst)).nodup hkeys

theorem vacate_load_le (u : State) (a : RunnerAddress) (m : RunnerWithMetadata)
    (hkeys : (u.assignments.map Prod.fst).Nodup)
    (hfind : findRunner u a = some m) :
    shardLoad (vacate u).assignments a ≤ classTarget u m.runner.version := by
  have hload : shardLoad (vacate u).assignments a
      = u.assignments.countP (fun p => decide (vacantize u p.1 p.2 = some a)) := by
    unfold shardLoad vacate updOwner
    rw [List.countP_map]
    rfl
  rw [hload]
  have hmono : u.assignments.countP (fun p => decide (vacantize u p.1 p.2 = some a))
      ≤ u.assignments.countP (fun p =>
          decide (p.1 ∈ (shardsOf u.assignments a).take (classTarget u m.runner.version))) := by
    apply List.countP_mono_left
    intro p _ hp
    simp only [decide_eq_true_eq] at hp ⊢
    cases ho : p.2 with
    | none => rw [ho] at hp; simp [vacantize] at hp
    | some b =>
      rw [ho] at hp
      cases hfb : findRunner u b with
      | none =>
        rw [vacantize, hfb] at hp
        have hab : b = a := by simpa using hp
        rw [hab, hfind] at hfb
        exact absurd hfb (by simp)
      | some m2 =>
        rw [vacantize, hfb] at hp
        have hp2 : (if p.1 ∈ (shardsOf u.assignments b).take (classTarget u m2.runner.version)
            then some b else none) = some a := hp
        by_cases hk : p.1 ∈ (shardsOf u.assignments b).take (classTarget u m2.runner.version)
        · rw [if_pos hk] at hp2
          have hab : b = a := by simpa using hp2
          subst hab
          rw [hfind] at hfb
          have hm2 : m = m2 := by simpa using hfb
          rw [← hm2] at hk
          exact hk
        · rw [if_neg hk] at hp2
          simp at hp2
  have hcount : u.assignments.countP (fun p =>
        decide (p.1 ∈ (shardsOf u.assignments a).take (classTarget u m.runner.version)))
      = (u.assignments.map Prod.fst).countP (fun sh =>
          decide (sh ∈ (shardsOf u.assignments a).take (classTarget u m.runner.version))) := by
    rw [List.countP_map]
    rfl
  have hkeepnd : ((shardsOf u.assignments a).take (classTarget u m.runner.version)).Nodup :=
    (List.take_sublist _ _).nodup (shardsOf_nodup hkeys)
  have hle := countP_mem_le (u.assignments.map Prod.fst)
    ((shardsOf u.assignments a).take (classTarget u m.runner.version)) hkeys hkeepnd
  have hlen : ((shardsOf u.assignments a).take (classTarget u m.runner.version)).length
      ≤ classTarget u m.runner.version := by
    rw [List.length_take]
    exact min_le_left _ _
  omega

theorem sum_map_add_ite (addrs : List RunnerAddress) (f : RunnerAddress → Nat)
    (b : RunnerAddress) (hnd : addrs.Nodup) (hb : b ∈ addrs) :
    (addrs.map (fun a => f a + if b = a then 1 else 0)).sum = (addrs.map f).sum + 1 := by
  induction addrs with
  | nil => simp at hb
  | cons a0 rest ih =>
    rcases List.nodup_cons.mp hnd with ⟨hmem, hrest⟩
    rw [List.map_cons, List.map_cons, List.sum_cons, List.sum_cons]
    by_cases hba : b = a0
    · rw [if_pos hba]
      have htail : rest.map (fun a => f a + if b = a then 1 else 0) = rest.map f := by
        apply List.map_congr_left
        intro a ha
        have hne : ¬(b = a) := by
          intro hcontra
          apply hmem
          have ha0 : a0 = a := hba.symm.trans hcontra
          rw [ha0]
          exact ha
        simp [hne]
      rw [htail]
      omega
    · rw [if_neg hba]
      have hbrest : b ∈ rest := by
        rcases List.mem_cons.mp hb with h1 | h2
        · exact absurd h1 hba
        · exact h2
      rw [ih hrest hbrest]
      omega

theorem sum_load_partition (addrs : List RunnerAddress)
    (asg : List (ShardId × Option RunnerAddress)) (hnd : addrs.Nodup)
    (hreg : ∀ sh a, (sh, some a) ∈ asg → a ∈ addrs) :
    (addrs.map (fun a => asg.countP (fun p => decide (p.2 = some a)))).sum
      + asg.countP (fun p => p.2.isNone) = asg.length := by
  induction asg with
  | nil => simp
  | cons p rest ih =>
    have hregr : ∀ sh a, (sh, some a) ∈ rest → a ∈ addrs :=
      fun sh a hmem => hreg sh a (List.mem_cons_of_mem p hmem)
    have ihr := ih hregr
    obtain ⟨sh, o⟩ := p
    cases o with
    | none =>
      have hmap : addrs.map (fun a => (((sh, (none : Option RunnerAddress)) :: rest)).countP
          (fun p => decide (p.2 = some a)))
          = addrs.map (fun a => rest.countP (fun p => decide (p.2 = some a))) := by
        apply List.map_congr_left
        intro a _
        rw [List.countP_cons]
        simp
      rw [hmap, List.countP_cons, List.length_cons]
      simp only [Option.isNone_none, if_true]
      omega
    | some b =>
      have hb : b ∈ addrs := hreg sh b (List.mem_cons_self _ _)
      have hmap : addrs.map (fun a => (((sh, some b) :: rest)).countP
          (fun p => decide (p.2 = some a)))
          = addrs.map (fun a =>
              rest.countP (fun p => decide (p.2 = some a)) + if b = a then 1 else 0) := by
        apply List.map_congr_left
        intro a _
        rw [List.countP_cons]
        by_cases hba : b = a
        · simp [hba]
        · have hne : ¬((some b : Option RunnerAddress) = some a) := by simpa using hba
          simp [hne, hba]
      rw [hmap, sum_map_add_ite addrs _ b hnd hb, List.countP_cons, List.length_cons]
      simp only [Option.isNone_some, Bool.false_eq_true, if_false]
      omega

theorem foldr_max_const {l : List Nat} {v0 : Nat} (hne : l ≠ []) (h : ∀ x ∈ l, x = v0) :
    l.foldr max 0 = v0 := by
  induction l with
  | nil => exact absurd rfl hne
  | cons x rest ih =>
    rw [List.foldr_cons]
    have hx : x = v0 := h x (List.mem_cons_self _ _)
    by_cases hr : rest = []
    · subst hr
      simp [hx]
    · have hrest : rest.foldr max 0 = v0 :=
        ih hr (fun z hz => h z (List.mem_cons_of_mem x hz))
      rw [hrest, hx]
      exact max_self v0

theorem maxVersion_const {s : State} {v0 : Nat} (hne : s.runners ≠ [])
    (hver : ∀ m ∈ s.runners, m.runner.version = v0) : maxVersion s = v0 := by
  unfold maxVersion
  apply foldr_max_const
  · intro hcontra
    exact hne (List.map_eq_nil_iff.mp hcontra)
  · intro x hx
    rcases List.mem_map.mp hx with ⟨m, hm, hxm⟩
    rw [← hxm]
    exact hver m hm

theorem candidates_all {s : State} {v0 : Nat} (hne : s.runners ≠ [])
    (hver : ∀ m ∈ s.runners, m.runner.version = v0) : candidates s = s.runners := by
  unfold candidates
  rw [List.filter_eq_self]
  intro m hm
  simp [hver m hm, maxVersion_const hne hver]

theorem candList_load {s : State} {a : RunnerAddress}
    (ha : a ∈ (candidates s).map addrOf) :
    candLoad (candList s) a = shardLoad s.assignments a := by
  unfold candLoad candList
  rw [List.find?_map]
  have hpred : ((fun c => decide (c.addr = a)) ∘
      (fun m => ({ addr := addrOf m, load := shardLoad s.assignments (addrOf m) } : Cand)))
      = (fun m => decide (addrOf m = a)) := rfl
  rw [hpred]
  have hsome : ((candidates s).find? (fun m => decide (addrOf m = a))).isSome := by
    rw [List.find?_isSome]
    rcases List.mem_map.mp ha with ⟨m, hm, hma⟩
    exact ⟨m, hm, by simp [hma]⟩
  cases hf : (candidates s).find? (fun m => decide (addrOf m = a)) with
  | none => rw [hf] at hsome; simp at hsome
  | some m0 =>
    have hm0 := List.find?_some hf
    simp only [decide_eq_true_eq] at hm0
    simp [hm0]

end ShardManager

namespace ShardManager

theorem candKey_le_load {c d : Cand} (h : candKey c ≤ candKey d) : c.load ≤ d.load := by
  unfold candKey at h
  rcases (Prod.Lex.le_iff _ _).mp h with h1 | ⟨h1, _⟩
  · exact le_of_lt h1
  · exact le_of_eq h1

theorem length_mul_le_loadSum {cands : List Cand} {L : Nat}
    (h : ∀ c ∈ cands, L ≤ c.load) : cands.length * L ≤ loadSum cands := by
  induction cands with
  | nil => simp [loadSum]
  | cons c rest ih =>
    have h1 := h c (List.mem_cons_self _ _)
    have h2 := ih (fun d hd => h d (List.mem_cons_of_mem c hd))
    have h3 : loadSum (c :: rest) = c.load + loadSum rest := by
      unfold loadSum
      rw [List.map_cons, List.sum_cons]
    rw [h3, List.length_cons, Nat.succ_mul]
    omega

theorem exists_load_lt {cands : List Cand} {L n : Nat}
    (hsum : loadSum cands + n ≤ cands.length * L) (hn : 1 ≤ n) :
    ∃ c ∈ cands, c.load < L := by
  by_contra hcontra
  push_neg at hcontra
  have := length_mul_le_loadSum hcontra
  omega

theorem bumpLoad_id {a : RunnerAddress} {cands : List Cand}
    (ha : a ∉ cands.map Cand.addr) : bumpLoad a cands = cands := by
  unfold bumpLoad
  conv_rhs => rw [← List.map_id cands]
  apply List.map_congr_left
  intro c hc
  have hne : ¬(c.addr = a) := fun hcontra =>
    ha (hcontra ▸ List.mem_map_of_mem Cand.addr hc)
  simp [hne]

theorem loadSum_bump {a : RunnerAddress} {cands : List Cand}
    (hnd : (cands.map Cand.addr).Nodup) (ha : a ∈ cands.map Cand.addr) :
    loadSum (bumpLoad a cands) = loadSum cands + 1 := by
  induction cands with
  | nil => simp at ha
  | cons c rest ih =>
    rw [List.map_cons, List.nodup_cons] at hnd
    have hsum : ∀ l : List Cand, loadSum l = (l.map Cand.load).sum := fun l => rfl
    by_cases hca : c.addr = a
    · have hrest : a ∉ rest.map Cand.addr := hca ▸ hnd.1
      unfold bumpLoad
      rw [List.map_cons, if_pos hca]
      have hbr : rest.map (fun c => if c.addr = a then { c with load := c.load + 1 } else c)
          = rest := by
        have := bumpLoad_id hrest
        unfold bumpLoad at this
        exact this
      rw [hbr, hsum, hsum, List.map_cons, List.map_cons, List.sum_cons, List.sum_cons]
      have hproj : ({ addr := c.addr, load := c.load + 1 } : Cand).load = c.load + 1 := rfl
      rw [hproj]
      omega
    · have hrest : a ∈ rest.map Cand.addr := by
        rcases List.mem_cons.mp ha with h1 | h2
        · exact absurd h1.symm hca
        · exact h2
      have ihr := ih hnd.2 hrest
      unfold bumpLoad at ihr ⊢
      rw [List.map_cons, if_neg hca, hsum, hsum, List.map_cons, List.map_cons,
        List.sum_cons, List.sum_cons, ← hsum, ← hsum, ihr]
      omega

theorem candLoad_bump {b : RunnerAddress} {cands : List Cand} (a : RunnerAddress)
    (ha : a ∈ cands.map Cand.addr) :
    candLoad (bumpLoad b cands) a = candLoad cands a + if a = b then 1 else 0 := by
  unfold candLoad bumpLoad
  rw [List.find?_map]
  have hpred : ((fun c => decide (c.addr = a)) ∘
      (fun c => if c.addr = b then ({ c with load := c.load + 1 } : Cand) else c))
      = (fun c => decide (c.addr = a)) := by
    funext c
    by_cases hc : c.addr = b
    · simp [hc]
    · simp [hc]
  rw [hpred]
  have hsome : (cands.find? (fun c => decide (c.addr = a))).isSome := by
    rw [List.find?_isSome]
    rcases List.mem_map.mp ha with ⟨c, hc, hca⟩
    exact ⟨c, hc, by simp [hca]⟩
  cases hf : cands.find? (fun c => decide (c.addr = a)) with
  | none => rw [hf] at hsome; simp at hsome
  | some c0 =>
    have hc0 := List.find?_some hf
    simp only [decide_eq_true_eq] at hc0
    by_cases hab : a = b
    · rw [if_pos hab]
      have : c0.addr = b := hc0.trans hab
      simp [Option.map_some, this]
    · rw [if_neg hab]
      have : ¬(c0.addr = b) := fun hcontra => hab (hc0.symm.trans hcontra)
      simp [Option.map_some, this]

theorem candLoad_mem {cands : List Cand} {a : RunnerAddress}
    (ha : a ∈ cands.map Cand.addr) :
    ∃ c ∈ cands, c.addr = a ∧ candLoad cands a = c.load := by
  have hsome : (cands.find? (fun c => decide (c.addr = a))).isSome := by
    rw [List.find?_isSome]
    rcases List.mem_map.mp ha with ⟨c, hc, hca⟩
    exact ⟨c, hc, by simp [hca]⟩
  cases hf : cands.find? (fun c => decide (c.addr = a)) with
  | none => rw [hf] at hsome; simp at hsome
  | some c0 =>
    have hc0 := List.find?_some hf
    simp only [decide_eq_true_eq] at hc0
    refine ⟨c0, List.mem_of_find?_eq_some hf, hc0, ?_⟩
    unfold candLoad
    rw [hf]
    rfl

theorem greedy_map_fst {cands : List Cand} (hne : cands ≠ []) (U : List ShardId) :
    (greedy U cands).map Prod.fst = U := by
  induction U generalizing cands with
  | nil => rfl
  | cons sh rest ih =>
    rw [greedy]
    cases hp : pickMin cands with
    | none => exact absurd (pickMin_eq_none.mp hp) hne
    | some c =>
      rw [List.map_cons]
      have hbne : bumpLoad c.addr cands ≠ [] := by
        intro hcontra
        apply hne
        have hlen := congrArg List.length hcontra
        unfold bumpLoad at hlen
        rw [List.length_map] at hlen
        exact List.eq_nil_of_length_eq_zero hlen
      rw [ih hbne]

theorem greedy_load_bound (L : Nat) :
    ∀ (U : List ShardId) (cands : List Cand),
    (cands.map Cand.addr).Nodup →
    (∀ c ∈ cands, c.load ≤ L) →
    loadSum cands + U.length ≤ cands.length * L →
    ∀ a ∈ cands.map Cand.addr,
      (greedy U cands).countP (fun mv => decide (mv.2 = a)) + candLoad cands a ≤ L := by
  intro U
  induction U with
  | nil =>
    intro cands _ hload _ a ha
    rcases candLoad_mem ha with ⟨c, hc, _, hcl⟩
    rw [greedy, List.countP_nil, hcl]
    simpa using hload c hc
  | cons sh rest ih =>
    intro cands hnd hload hsum a ha
    have hne : cands ≠ [] := by
      intro hcontra
      rw [hcontra] at ha
      simp at ha
    cases hp : pickMin cands with
    | none => exact absurd (pickMin_eq_none.mp hp) hne
    | some c =>
      have hcmem : c ∈ cands := pickMin_mem hp
      have hcaddr : c.addr ∈ cands.map Cand.addr := List.mem_map_of_mem Cand.addr hcmem
      have hcload : c.load < L := by
        rcases exists_load_lt (n := rest.length + 1)
          (by simpa [List.length_cons] using hsum) (by omega) with ⟨d, hd, hdl⟩
        have hkey := pickMin_le hp d hd
        exact lt_of_le_of_lt (candKey_le_load hkey) hdl
      have hnd2 : ((bumpLoad c.addr cands).map Cand.addr).Nodup := by
        rw [bumpLoad_map_addr]; exact hnd
      have hload2 : ∀ d ∈ bumpLoad c.addr cands, d.load ≤ L := by
        intro d hd
        unfold bumpLoad at hd
        rcases List.mem_map.mp hd with ⟨d0, hd0, hde⟩
        by_cases hda : d0.addr = c.addr
        · have hd0c : d0 = c := List.inj_on_of_nodup_map hnd hd0 hcmem hda
          rw [← hde, hda]
          simp [hd0c]
          omega
        · rw [← hde]
          simp only [if_neg hda]
          exact hload d0 hd0
      have hsum2 : loadSum (bumpLoad c.addr cands) + rest.length
          ≤ (bumpLoad c.addr cands).length * L := by
        rw [loadSum_bump hnd hcaddr]
        have hlen : (bumpLoad c.addr cands).length = cands.length := by
          unfold bumpLoad; rw [List.length_map]
        rw [hlen]
        simp only [List.length_cons] at hsum
        omega
      have ha2 : a ∈ (bumpLoad c.addr cands).map Cand.addr := by
        rw [bumpLoad_map_addr]; exact ha
      have ihr := ih (bumpLoad c.addr cands) hnd2 hload2 hsum2 a ha2
      rw [greedy, hp, List.countP_cons]
      rw [candLoad_bump a ha] at ihr
      by_cases hac : a = c.addr
      · have hd : decide (((sh, c.addr) : ShardId × RunnerAddress).2 = a) = true :=
          decide_eq_true hac.symm
        rw [hd, if_pos rfl]
        rw [if_pos hac] at ihr
        omega
      · have hd : decide (((sh, c.addr) : ShardId × RunnerAddress).2 = a) = false := by
          simp only [decide_eq_false_iff_not]
          exact fun hcontra => hac hcontra.symm
        rw [hd]
        simp only [Bool.false_eq_true, if_false]
        rw [if_neg hac] at ihr
        omega

end ShardManager


namespace ShardManager

theorem find?_eq_none_of_not_mem_fst {moves : List (ShardId × RunnerAddress)} {sh : ShardId}
    (h : sh ∉ moves.map Prod.fst) :
    moves.find? (fun mv => decide (mv.1 = sh)) = none := by
  rw [List.find?_eq_none]
  intro mv hmv
  simp only [decide_eq_true_eq]
  intro hcontra
  exact h (hcontra ▸ List.mem_map_of_mem Prod.fst hmv)

theorem find?_isSome_of_mem_fst {moves : List (ShardId × RunnerAddress)} {sh : ShardId}
    (h : sh ∈ moves.map Prod.fst) :
    (moves.find? (fun mv => decide (mv.1 = sh))).isSome := by
  rw [List.find?_isSome]
  rcases List.mem_map.mp h with ⟨mv, hmv, he⟩
  exact ⟨mv, hmv, by simp [he]⟩

theorem unassigned_nodup {asg : List (ShardId × Option RunnerAddress)}
    (hkeys : (asg.map Prod.fst).Nodup) : (unassignedShards asg).Nodup :=
  (((List.filter_sublist asg).map Prod.fst)).nodup hkeys

theorem unassigned_sub {asg : List (ShardId × Option RunnerAddress)} :
    ∀ sh ∈ unassignedShards asg, sh ∈ asg.map Prod.fst := by
  intro sh hsh
  unfold unassignedShards at hsh
  rcases List.mem_map.mp hsh with ⟨p, hp, he⟩
  exact he ▸ List.mem_map_of_mem Prod.fst (List.mem_of_mem_filter hp)

theorem mem_unassigned_iff {asg : List (ShardId × Option RunnerAddress)}
    (hkeys : (asg.map Prod.fst).Nodup) {sh : ShardId} {o : Option RunnerAddress}
    (hmem : (sh, o) ∈ asg) :
    sh ∈ unassignedShards asg ↔ o = none := by
  constructor
  · intro hsh
    unfold unassignedShards at hsh
    rcases List.mem_map.mp hsh with ⟨⟨sh2, o2⟩, hp, he⟩
    rcases List.mem_filter.mp hp with ⟨hp2, hp3⟩
    have hsh2 : sh2 = sh := he
    subst hsh2
    have hpe : ((sh2, o) : ShardId × Option RunnerAddress) = (sh2, o2) :=
      List.inj_on_of_nodup_map hkeys hmem hp2 rfl
    have ho : o = o2 := congrArg Prod.snd hpe
    rw [ho]
    simpa using hp3
  · intro ho
    subst ho
    unfold unassignedShards
    have hmf : (sh, (none : Option RunnerAddress)) ∈ asg.filter (fun p => p.2.isNone) :=
      List.mem_filter.mpr ⟨hmem, by simp⟩
    exact List.mem_map_of_mem Prod.fst hmf

theorem applyMoves_load (moves : List (ShardId × RunnerAddress))
    (asg : List (ShardId × Option RunnerAddress)) (a : RunnerAddress)
    (hkeys : (asg.map Prod.fst).Nodup)
    (hmnd : (moves.map Prod.fst).Nodup)
    (hsub : ∀ sh ∈ moves.map Prod.fst, sh ∈ asg.map Prod.fst)
    (hun : ∀ sh o, (sh, o) ∈ asg → sh ∈ moves.map Prod.fst → o = none) :
    shardLoad (applyMoves moves asg) a
      = shardLoad asg a + moves.countP (fun mv => decide (mv.2 = a)) := by
  have hkasub : ∀ sh ∈ (moves.filter (fun mv => decide (mv.2 = a))).map Prod.fst,
      sh ∈ moves.map Prod.fst := by
    intro sh hsh
    rcases List.mem_map.mp hsh with ⟨mv, hmv, he⟩
    exact he ▸ List.mem_map_of_mem Prod.fst (List.mem_of_mem_filter hmv)
  have hload : shardLoad (applyMoves moves asg) a
      = asg.countP (fun p => decide
          ((match moves.find? (fun mv => decide (mv.1 = p.1)) with
            | some mv => some mv.2
            | none => p.2) = some a)) := by
    unfold shardLoad applyMoves updOwner
    rw [List.countP_map]
    rfl
  rw [hload]
  have hsplit : asg.countP (fun p => decide
        ((match moves.find? (fun mv => decide (mv.1 = p.1)) with
          | some mv => some mv.2
          | none => p.2) = some a))
      = asg.countP (fun p =>
          decide (p.1 ∈ (moves.filter (fun mv => decide (mv.2 = a))).map Prod.fst)
          || (decide (p.2 = some a) && !(decide (p.1 ∈ moves.map Prod.fst)))) := by
    apply List.countP_congr
    rintro ⟨sh, o⟩ hp
    by_cases hm : sh ∈ moves.map Prod.fst
    · have hosome := find?_isSome_of_mem_fst hm
      cases hf : moves.find? (fun mv => decide (mv.1 = sh)) with
      | none => rw [hf] at hosome; simp at hosome
      | some mv =>
        have hmv := List.find?_some hf
        simp only [decide_eq_true_eq] at hmv
        have hmvmem := List.mem_of_find?_eq_some hf
        have hnone : o = none := hun sh o hp hm
        subst hnone
        have hiff : (mv.2 = a) ↔
            (sh ∈ (moves.filter (fun mv => decide (mv.2 = a))).map Prod.fst) := by
          constructor
          · intro h2
            have hmvf : mv ∈ moves.filter (fun mv => decide (mv.2 = a)) :=
              List.mem_filter.mpr ⟨hmvmem, by simp [h2]⟩
            have hmem2 := List.mem_map_of_mem Prod.fst hmvf
            rwa [hmv] at hmem2
          · intro h2
            rcases List.mem_map.mp h2 with ⟨mv2, hmv2f, he2⟩
            rcases List.mem_filter.mp hmv2f with ⟨hmv2m, hmv2p⟩
            have heq : mv2 = mv :=
              List.inj_on_of_nodup_map hmnd hmv2m hmvmem (he2.trans hmv.symm)
            rw [← heq]
            simpa using hmv2p
        show decide ((some mv.2 : Option RunnerAddress) = some a) = true ↔
          (decide (sh ∈ (moves.filter (fun mv => decide (mv.2 = a))).map Prod.fst)
            || (decide ((none : Option RunnerAddress) = some a)
                && !(decide (sh ∈ moves.map Prod.fst)))) = true
        simp only [decide_eq_true_eq, Bool.or_eq_true, Bool.and_eq_true, Option.some_inj]
        constructor
        · intro h2
          exact Or.inl (by simpa using hiff.mp h2)
        · rintro (h2 | ⟨h2, _⟩)
          · exact hiff.mpr (by simpa using h2)
          · exact absurd h2 (by simp)
    · have h1 : decide (sh ∈ (moves.filter (fun mv => decide (mv.2 = a))).map Prod.fst)
          = false := by
        simp only [decide_eq_false_iff_not]
        intro hcontra
        exact hm (hkasub sh hcontra)
      have h2 : decide (sh ∈ moves.map Prod.fst) = false := by
        simp only [decide_eq_false_iff_not]
        exact hm
      show decide ((match moves.find? (fun mv => decide (mv.1 = sh)) with
          | some mv => some mv.2
          | none => o) = some a) = true ↔
        (decide (sh ∈ (moves.filter (fun mv => decide (mv.2 = a))).map Prod.fst)
          || (decide (o = some a) && !(decide (sh ∈ moves.map Prod.fst)))) = true
      rw [find?_eq_none_of_not_mem_fst hm, h1, h2]
      simp
  rw [hsplit]
  have hdisj := countP_disjoint
    (fun p : ShardId × Option RunnerAddress =>
      decide (p.1 ∈ (moves.filter (fun mv => decide (mv.2 = a))).map Prod.fst))
    (fun p => decide (p.2 = some a) && !(decide (p.1 ∈ moves.map Prod.fst))) asg
    (by
      rintro ⟨sh, o⟩ _
      rintro ⟨hq1, hq2⟩
      simp only [decide_eq_true_eq] at hq1
      simp only [Bool.and_eq_true, Bool.not_eq_true', decide_eq_false_iff_not] at hq2
      exact hq2.2 (hkasub sh hq1))
  rw [hdisj]
  have hka : asg.countP (fun p =>
        decide (p.1 ∈ (moves.filter (fun mv => decide (mv.2 = a))).map Prod.fst))
      = moves.countP (fun mv => decide (mv.2 = a)) := by
    have hcmap : asg.countP (fun p =>
          decide (p.1 ∈ (moves.filter (fun mv => decide (mv.2 = a))).map Prod.fst))
        = (asg.map Prod.fst).countP (fun sh =>
            decide (sh ∈ (moves.filter (fun mv => decide (mv.2 = a))).map Prod.fst)) := by
      rw [List.countP_map]
      rfl
    rw [hcmap]
    have hkand : ((moves.filter (fun mv => decide (mv.2 = a))).map Prod.fst).Nodup :=
      ((List.filter_sublist moves).map Prod.fst).nodup hmnd
    rw [countP_mem_eq _ _ hkeys hkand (fun k hk => hsub k (hkasub k hk))]
    rw [List.length_map, ← List.countP_eq_length_filter]
  have hq2 : asg.countP (fun p => decide (p.2 = some a)
        && !(decide (p.1 ∈ moves.map Prod.fst)))
      = shardLoad asg a := by
    unfold shardLoad
    apply List.countP_congr
    rintro ⟨sh, o⟩ hp
    by_cases ho : o = some a
    · have hnm : sh ∉ moves.map Prod.fst := by
        intro hcontra
        have := hun sh o hp hcontra
        rw [ho] at this
        exact absurd this (by simp)
      simp [ho, hnm]
    · simp [ho]
  rw [hka, hq2]
  omega

end ShardManager

namespace ShardManager

theorem classTarget_le {u : State} {v0 : Nat}
    (hver : ∀ m ∈ u.runners, m.runner.version = v0) :
    classTarget u v0 ≤ ceilDiv u.assignments.length u.runners.length := by
  have hcls : u.runners.filter (fun m => decide (m.runner.version = v0)) = u.runners := by
    rw [List.filter_eq_self]
    intro m hm
    simp [hver m hm]
  show ceilDiv (u.assignments.countP (fun p =>
      (u.runners.filter (fun m => decide (m.runner.version = v0))).any
        (fun m => decide (p.2 = some (addrOf m)))))
      (u.runners.filter (fun m => decide (m.runner.version = v0))).length
    ≤ ceilDiv u.assignments.length u.runners.length
  rw [hcls]
  exact ceilDiv_mono_left _ (List.countP_le_length _)

/-- Counterexample for C1: with 4 shards, registering runners 1, 2 and 3 at
the same version one at a time (the debounced rebalance round running after
each registration) reaches a quiescent state — a further round is the
identity, so no amount of additional quiet time changes it — in which every
runner is at the maximum version, runner 1 owns two shards and runner 3
owns none: the shard counts of two runners at the maximum version differ by
two, refuting the pairwise bound of one. -/
theorem shardManager_quiescent_balance_counterexample :
    (step Fixtures.cfg0 Fixtures.quiescent3 .rebalance).1 = Fixtures.quiescent3 ∧
    (∀ m ∈ Fixtures.quiescent3.runners,
      m.runner.version = maxVersion Fixtures.quiescent3) ∧
    Fixtures.addr 1 ∈ addrsOf Fixtures.quiescent3 ∧
    Fixtures.addr 3 ∈ addrsOf Fixtures.quiescent3 ∧
    shardLoad Fixtures.quiescent3.assignments (Fixtures.addr 1) = 2 ∧
    shardLoad Fixtures.quiescent3.assignments (Fixtures.addr 3) = 0 ∧
    ¬(shardLoad Fixtures.quiescent3.assignments (Fixtures.addr 1)
        - shardLoad Fixtures.quiescent3.assignments (Fixtures.addr 3) ≤ 1) :=
  ⟨by decide, by decide, by decide, by decide, by decide, by decide, by decide⟩

/-- C1 (amended): for every fleet of runners all registered at the same
version, once the manager is quiescent past the debounce window (the final
rebalance round has run), every shard in `[1, N]` is assigned, and every
runner owns at most `⌈N / k⌉` shards where `k` is the fleet size.  The
original pairwise bound — any two runners differ by at most one shard —
does not hold in general (see the counterexample: loads `(2, 2, 0)` with
`N = 4`), because the rebalancer only vacates runners exceeding
`⌈owned / k⌉` and so never feeds a merely underloaded runner. -/
theorem shardManager_quiescent_balance_amended (cfg : Config) (cmds : List Cmd) (v0 : Nat)
    (hne : (applyAll cfg (initState cfg.totalShards) cmds).runners ≠ [])
    (hver : ∀ m ∈ (applyAll cfg (initState cfg.totalShards) cmds).runners,
      m.runner.version = v0) :
    (∀ p ∈ ((step cfg (applyAll cfg (initState cfg.totalShards) cmds) .rebalance).1).assignments,
        p.2.isSome) ∧
    (∀ m ∈ ((step cfg (applyAll cfg (initState cfg.totalShards) cmds) .rebalance).1).runners,
        shardLoad
          ((step cfg (applyAll cfg (initState cfg.totalShards) cmds) .rebalance).1).assignments
          (addrOf m)
          ≤ ceilDiv cfg.totalShards
            ((step cfg (applyAll cfg (initState cfg.totalShards) cmds)
              .rebalance).1).runners.length) := by
  have hwf := applyAll_wf cfg cmds
  set u := applyAll cfg (initState cfg.totalShards) cmds with hu
  set N := cfg.totalShards with hN
  set v := vacate u with hv
  set moves := decideAssignmentsForUnassignedShards v with hmoves
  have hkeys_u : (u.assignments.map Prod.fst).Nodup := by
    rw [hwf.keys]
    exact List.nodup_range' 1 N
  have hkeys_v_eq : v.assignments.map Prod.fst = u.assignments.map Prod.fst := by
    rw [hv]
    exact updOwner_map_fst _ _
  have hkeys_v : (v.assignments.map Prod.fst).Nodup := by
    rw [hkeys_v_eq]
    exact hkeys_u
  have hlen_u : u.assignments.length = N := by
    have hlm := congrArg List.length hwf.keys
    rwa [List.length_map, List.length_range'] at hlm
  have hreg_v : Registered v := vacate_registered hwf.reg
  have hrv : v.runners = u.runners := rfl
  have hne_v : v.runners ≠ [] := by rw [hrv]; exact hne
  have hver_v : ∀ m ∈ v.runners, m.runner.version = v0 := by rw [hrv]; exact hver
  set k := u.runners.length with hk
  have hk1 : 1 ≤ k := by
    rw [hk]
    exact List.length_pos.mpr hne
  set L := ceilDiv N k with hL
  have hvle : ∀ a ∈ addrsOf u, shardLoad v.assignments a ≤ L := by
    intro a ha
    have hsome := findRunner_isSome_of_mem ha
    cases hf : findRunner u a with
    | none => rw [hf] at hsome; simp at hsome
    | some m0 =>
      have hm0 := findRunner_mem hf
      have hver0 : m0.runner.version = v0 := hver m0 hm0.1
      have hb := vacate_load_le u a m0 hkeys_u hf
      rw [hver0] at hb
      have hct := classTarget_le hver
      rw [hlen_u] at hct
      exact le_trans hb (le_trans hct (le_of_eq rfl))
  have hcand : candidates v = v.runners := candidates_all hne_v hver_v
  have hclmap : (candList v).map Cand.addr = addrsOf u := by
    rw [candList_map_addr, hcand, hrv]
    rfl
  have hclnd : ((candList v).map Cand.addr).Nodup := by
    rw [hclmap]
    exact hwf.nodupAddrs
  have hcllen : (candList v).length = k := by
    unfold candList
    rw [List.length_map, hcand, hrv]
  have hclne : candList v ≠ [] := by
    intro hcontra
    have hlc := congrArg List.length hcontra
    rw [hcllen] at hlc
    simp at hlc
    omega
  have hclload : ∀ c ∈ candList v, c.load ≤ L := by
    intro c hc
    unfold candList at hc
    rcases List.mem_map.mp hc with ⟨m0, hm0, he⟩
    rw [← he]
    show shardLoad v.assignments (addrOf m0) ≤ L
    apply hvle
    rw [hcand, hrv] at hm0
    exact List.mem_map_of_mem addrOf hm0
  have hpart := sum_load_partition (addrsOf u) v.assignments hwf.nodupAddrs
    (fun sh a hmem => hreg_v sh a hmem)
  have hlen_v : v.assignments.length = N := by
    have hlm := congrArg List.length hkeys_v_eq
    rw [List.length_map, List.length_map] at hlm
    rw [hlm, hlen_u]
  have hloadsum : loadSum (candList v) + (unassignedShards v.assignments).length = N := by
    have h1 : loadSum (candList v)
        = ((addrsOf u).map (fun a => v.assignments.countP
            (fun p => decide (p.2 = some a)))).sum := by
      unfold loadSum candList addrsOf
      rw [hcand, hrv, List.map_map, List.map_map]
      rfl
    have h2 : (unassignedShards v.assignments).length
        = v.assignments.countP (fun p => p.2.isNone) := by
      unfold unassignedShards
      rw [List.length_map, ← List.countP_eq_length_filter]
    rw [h1, h2, hpart, hlen_v]
  have hsumhyp : loadSum (candList v) + (unassignedShards v.assignments).length
      ≤ (candList v).length * L := by
    rw [hloadsum, hcllen, hL]
    exact le_mul_ceilDiv N k hk1
  have hbound := greedy_load_bound L (unassignedShards v.assignments) (candList v)
    hclnd hclload hsumhyp
  have hmk : moves.map Prod.fst = unassignedShards v.assignments := by
    rw [hmoves]
    unfold decideAssignmentsForUnassignedShards
    exact greedy_map_fst hclne _
  have hmknd : (moves.map Prod.fst).Nodup := by
    rw [hmk]
    exact unassigned_nodup hkeys_v
  have hmksub : ∀ sh ∈ moves.map Prod.fst, sh ∈ v.assignments.map Prod.fst := by
    rw [hmk]
    exact unassigned_sub
  have hmun : ∀ sh o, (sh, o) ∈ v.assignments → sh ∈ moves.map Prod.fst → o = none := by
    intro sh o hmem hin
    rw [hmk] at hin
    exact (mem_unassigned_iff hkeys_v hmem).mp hin
  constructor
  · rintro ⟨sh, o⟩ hp
    have hp2 : (sh, o) ∈ applyMoves moves v.assignments := hp
    unfold applyMoves at hp2
    rcases mem_updOwner.mp hp2 with ⟨o0, h0, ho⟩
    cases hf : moves.find? (fun mv => decide (mv.1 = sh)) with
    | some mv =>
      rw [hf] at ho
      have ho2 : o = some mv.2 := ho
      rw [ho2]
      rfl
    | none =>
      rw [hf] at ho
      have ho2 : o = o0 := ho
      subst ho2
      have hnm : sh ∉ moves.map Prod.fst := by
        intro hcontra
        have hcs := find?_isSome_of_mem_fst hcontra
        rw [hf] at hcs
        simp at hcs
      cases hcase : o with
      | some b => rfl
      | none =>
        exfalso
        rw [hcase] at h0
        have hin := (mem_unassigned_iff hkeys_v h0).mpr rfl
        rw [← hmk] at hin
        exact hnm hin
  · intro m hm
    have hm2 : m ∈ u.runners := hm
    have ha : addrOf m ∈ addrsOf u := List.mem_map_of_mem addrOf hm2
    have haml : addrOf m ∈ (candList v).map Cand.addr := by
      rw [hclmap]
      exact ha
    have hb := hbound (addrOf m) haml
    have hcl : candLoad (candList v) (addrOf m) = shardLoad v.assignments (addrOf m) := by
      apply candList_load
      rw [hcand, hrv]
      exact ha
    rw [hcl] at hb
    have hgm : greedy (unassignedShards v.assignments) (candList v) = moves := by
      rw [hmoves]
      rfl
    rw [hgm] at hb
    have happ := applyMoves_load moves v.assignments (addrOf m) hkeys_v hmknd hmksub hmun
    show shardLoad (applyMoves moves v.assignments) (addrOf m) ≤ ceilDiv N k
    rw [happ]
    omega

/-- Witness for C1 (amended): one runner registered on a 4-shard cluster;
after the round, shard 1 is assigned (to runner 1) and runner 1 owns at
most `⌈4 / 1⌉` shards. -/
theorem shardManager_quiescent_balance_amended_witness :
    (((1 : ShardId), some (Fixtures.addr 1)).2.isSome = true) ∧
    shardLoad
      ((step Fixtures.cfg0
        (applyAll Fixtures.cfg0 (initState Fixtures.cfg0.totalShards) [Fixtures.reg 1])
        .rebalance).1).assignments (addrOf (Fixtures.meta0 1 1))
      ≤ ceilDiv Fixtures.cfg0.totalShards
        ((step Fixtures.cfg0
          (applyAll Fixtures.cfg0 (initState Fixtures.cfg0.totalShards) [Fixtures.reg 1])
          .rebalance).1).runners.length :=
  ⟨(shardManager_quiescent_balance_amended Fixtures.cfg0 [Fixtures.reg 1] 1
      (by decide) (by decide)).1 (1, some (Fixtures.addr 1)) (by decide),
   (shardManager_quiescent_balance_amended Fixtures.cfg0 [Fixtures.reg 1] 1
      (by decide) (by decide)).2 (Fixtures.meta0 1 1) (by decide)⟩

end ShardManager
